import Mathlib

/-!
# LogNormal_Distribution: a verification development

Shallow embedding of `LogNormal_Distribution.cpp` / `LogNormal_Distribution.h`.

Modelling conventions
* A C `double` is a value of `Dbl`: a real number, `+inf`, `-inf` or `NaN`.  Arithmetic on
  finite values is exact real arithmetic (no rounding, no overflow); the special values follow
  IEEE 754 / the C math library.  There is no signed zero: a zero divisor counts as `+0`.
* `exp`, `log`, `sqrt`, `erf`, `log2`, `pow` are the C math library functions, taken as the
  mathematical functions they approximate, with the library's values at the special points
  (`log(0) = -inf`, `log(x) = NaN` for `x < 0`, `erf(-inf) = -1`, ...).
* The object state is the three private members `error`, `Mu`, `Sigma`; a method that mutates
  the object returns the new state.
-/

noncomputable section

/-- Value of a C `double`: a real, plus or minus infinity, or not-a-number. -/
inductive Dbl where
  | fin (r : ℝ)
  | pinf
  | ninf
  | nan

namespace Dbl

/-- Conversion `int -> double`, as performed by `return error;`. -/
def ofInt (n : Int) : Dbl := fin (n : ℝ)

/-- Unary minus. -/
def neg : Dbl → Dbl
  | fin r => fin (-r)
  | pinf => ninf
  | ninf => pinf
  | nan => nan

/-- Addition of doubles; `inf + (-inf)` is NaN. -/
def add : Dbl → Dbl → Dbl
  | fin a, fin b => fin (a + b)
  | fin _, pinf => pinf
  | fin _, ninf => ninf
  | pinf, fin _ => pinf
  | pinf, pinf => pinf
  | ninf, fin _ => ninf
  | ninf, ninf => ninf
  | _, _ => nan

/-- Subtraction `a - b = a + (-b)`. -/
def sub (a b : Dbl) : Dbl := add a (neg b)

/-- Product of an infinity of sign `s` (true = positive) with the finite value `r`;
`inf * 0` is NaN. -/
def infTimes (s : Bool) (r : ℝ) : Dbl :=
  if r = 0 then nan
  else if (0 < r) = (s = true) then pinf else ninf

/-- Multiplication of doubles. -/
def mul : Dbl → Dbl → Dbl
  | fin a, fin b => fin (a * b)
  | fin a, pinf => infTimes true a
  | fin a, ninf => infTimes false a
  | pinf, fin b => infTimes true b
  | ninf, fin b => infTimes false b
  | pinf, pinf => pinf
  | pinf, ninf => ninf
  | ninf, pinf => ninf
  | ninf, ninf => pinf
  | _, _ => nan

/-- Division of doubles; `x / 0` is an infinity for `x ≠ 0` and NaN for `x = 0`
(the zero divisor is taken as `+0`), `inf / inf` is NaN. -/
def div : Dbl → Dbl → Dbl
  | fin a, fin b =>
      if b = 0 then (if a = 0 then nan else if 0 < a then pinf else ninf) else fin (a / b)
  | fin _, pinf => fin 0
  | fin _, ninf => fin 0
  | pinf, fin b => if 0 ≤ b then pinf else ninf
  | ninf, fin b => if 0 ≤ b then ninf else pinf
  | _, _ => nan

instance : Neg Dbl := ⟨neg⟩
instance : Add Dbl := ⟨add⟩
instance : Sub Dbl := ⟨sub⟩
instance : Mul Dbl := ⟨mul⟩
instance : Div Dbl := ⟨div⟩

/-- Comparison `a > b`; false as soon as one side is NaN. -/
def gt : Dbl → Dbl → Prop
  | fin a, fin b => b < a
  | fin _, ninf => True
  | pinf, fin _ => True
  | pinf, ninf => True
  | _, _ => False

/-- Comparison `a <= b`; false as soon as one side is NaN. -/
def le : Dbl → Dbl → Prop
  | fin a, fin b => a ≤ b
  | fin _, pinf => True
  | ninf, fin _ => True
  | ninf, ninf => True
  | ninf, pinf => True
  | pinf, pinf => True
  | _, _ => False

/-- Comparison `a >= b`. -/
def ge (a b : Dbl) : Prop := le b a

instance (a b : Dbl) : Decidable (gt a b) := Classical.propDecidable _
instance (a b : Dbl) : Decidable (le a b) := Classical.propDecidable _
instance (a b : Dbl) : Decidable (ge a b) := Classical.propDecidable _

/-- The Arduino macro `abs(x)`, `((x)>0?(x):-(x))`. -/
def abs (x : Dbl) : Dbl := if gt x (fin 0) then x else -x

/-- C `exp`. -/
def exp : Dbl → Dbl
  | fin r => fin (Real.exp r)
  | pinf => pinf
  | ninf => fin 0
  | nan => nan

/-- C `log`: `log(0) = -inf`, NaN on negative arguments. -/
def log : Dbl → Dbl
  | fin r => if 0 < r then fin (Real.log r) else if r = 0 then ninf else nan
  | pinf => pinf
  | ninf => nan
  | nan => nan

/-- C `log2`. -/
def log2 : Dbl → Dbl
  | fin r => if 0 < r then fin (Real.logb 2 r) else if r = 0 then ninf else nan
  | pinf => pinf
  | ninf => nan
  | nan => nan

/-- C `sqrt`: NaN on negative arguments. -/
def sqrt : Dbl → Dbl
  | fin r => if 0 ≤ r then fin (Real.sqrt r) else nan
  | pinf => pinf
  | ninf => nan
  | nan => nan

/-- C `pow(x, n)` for the non-negative integral exponents the program uses. -/
def pow : Dbl → Nat → Dbl
  | fin r, n => fin (r ^ n)
  | pinf, n => if n = 0 then fin 1 else pinf
  | ninf, n => if n = 0 then fin 1 else if n % 2 = 0 then pinf else ninf
  | nan, n => if n = 0 then fin 1 else nan

/-- The error function on the reals, `erf x = 2/sqrt(pi) * ∫_0^x exp(-t^2) dt`. -/
def erfReal (x : ℝ) : ℝ :=
  2 / Real.sqrt Real.pi * ∫ t in (0 : ℝ)..x, Real.exp (-(t ^ 2))

/-- C `erf`: `erf(+inf) = 1`, `erf(-inf) = -1`. -/
def erf : Dbl → Dbl
  | fin r => fin (erfReal r)
  | pinf => fin 1
  | ninf => fin (-1)
  | nan => nan

end Dbl

open Dbl (fin pinf ninf nan)

/-- `#define CONSTANT_EpsStop 0.0000001` -/
def CONSTANT_EpsStop : Dbl := fin 0.0000001

/-- `#define CONSTANT_Pi 3.14159265358979` -/
def CONSTANT_Pi : Dbl := fin 3.14159265358979

/-- `#define CONSTANT_e  2.718281828459` -/
def CONSTANT_e : Dbl := fin 2.718281828459

/-- The `<math.h>` constant `M_SQRT1_2`, `#define M_SQRT1_2 0.70710678118654752440`. -/
def M_SQRT1_2 : Dbl := fin 0.70710678118654752440

/-- The private members of the class `LogNormal_Distribution`. -/
structure LogNormal_Distribution where
  error : Int
  Mu : Dbl
  Sigma : Dbl

namespace LogNormal_Distribution

/-- The constructor `LogNormal_Distribution(double _Mu, double _Sigma)`. -/
def ctor (_Mu _Sigma : Dbl) : LogNormal_Distribution :=
  let error : Int := 1
  let error : Int := if Dbl.le _Sigma (fin 0) then -2 else error
  { error := error, Mu := _Mu, Sigma := _Sigma }

/-- `double GetPDF(double x)` -/
def GetPDF (d : LogNormal_Distribution) (x : Dbl) : Dbl :=
  if d.error < 0 then Dbl.ofInt d.error
  else
    Dbl.exp (fin (-0.5) * Dbl.pow ((Dbl.log x - d.Mu) / d.Sigma) 2)
      / (x * d.Sigma * Dbl.sqrt (fin 2.0 * CONSTANT_Pi))

/-- `double GetCDF(double x)` -/
def GetCDF (d : LogNormal_Distribution) (x : Dbl) : Dbl :=
  let xx := (Dbl.log x - d.Mu) / d.Sigma
  if d.error < 0 then Dbl.ofInt d.error
  else fin 0.5 * (fin 1.0 + Dbl.erf (M_SQRT1_2 * xx))

/-- `double GetMean(void)` -/
def GetMean (d : LogNormal_Distribution) : Dbl :=
  if d.error < 0 then Dbl.ofInt d.error
  else Dbl.exp (d.Mu + fin 0.5 * Dbl.pow d.Sigma 2)

/-- `double GetVariance(void)` -/
def GetVariance (d : LogNormal_Distribution) : Dbl :=
  if d.error < 0 then Dbl.ofInt d.error
  else Dbl.exp (Dbl.pow d.Sigma 2 - fin 1) * Dbl.exp (fin 2.0 * d.Mu + Dbl.pow d.Sigma 2)

/-- `double GetStdDeviation(void)` -/
def GetStdDeviation (d : LogNormal_Distribution) : Dbl :=
  if d.error < 0 then Dbl.ofInt d.error
  else
    let Sigma_sq := Dbl.pow d.Sigma 2
    let var := (Dbl.exp Sigma_sq - fin 1) * Dbl.exp (fin 2.0 * d.Mu + Sigma_sq)
    Dbl.sqrt var

/-- `double GetSkewness(void)` -/
def GetSkewness (d : LogNormal_Distribution) : Dbl :=
  if d.error < 0 then Dbl.ofInt d.error
  else
    let Sigma_sq := Dbl.pow d.Sigma 2
    (Dbl.exp Sigma_sq + fin 2) * Dbl.sqrt (Dbl.exp Sigma_sq - fin 1)

/-- `double GetKurtosis(void)` -/
def GetKurtosis (d : LogNormal_Distribution) : Dbl :=
  if d.error < 0 then Dbl.ofInt d.error
  else
    let Sigma_sq := Dbl.pow d.Sigma 2
    Dbl.exp (fin 4.0 * Sigma_sq) + fin 2.0 * Dbl.exp (fin 3.0 * Sigma_sq)
      + fin 3.0 * Dbl.exp (fin 2.0 * Sigma_sq) - fin 6.0

/-- `double GetEntropy(void)` -/
def GetEntropy (d : LogNormal_Distribution) : Dbl :=
  if d.error < 0 then Dbl.ofInt d.error
  else Dbl.log2 (d.Sigma * Dbl.exp (d.Mu + fin 0.5) * Dbl.sqrt (fin 2.0 * CONSTANT_Pi))

/-- The `do { ... } while ((Eps > CONSTANT_EpsStop) && (i < 70));` loop of `GetQuantile`,
entered with the counter `i` and the bracket `Vl`, `Vh`; it returns the final values of
`i` and `Vm`. -/
def GetQuantile_loop (d : LogNormal_Distribution) (p : Dbl) (i : Nat) (Vh Vl : Dbl) :
    Nat × Dbl :=
  let i1 := i + 1
  let Vm := (Vh + Vl) / fin 2
  let Pr := d.GetCDF Vm
  let Eps := Dbl.abs (Pr - p)
  let Vh1 := if Dbl.gt Pr p then Vm else Vh
  let Vl1 := if Dbl.gt Pr p then Vl else Vm
  if Dbl.gt Eps CONSTANT_EpsStop ∧ i1 < 70 then GetQuantile_loop d p i1 Vh1 Vl1
  else (i1, Vm)
termination_by 70 - i
decreasing_by omega

/-- `double GetQuantile(double p)` -/
def GetQuantile (d : LogNormal_Distribution) (p : Dbl) : Dbl :=
  let Vh := fin 16
  let Vl := fin (-16)
  if d.error < 0 then Dbl.ofInt d.error
  else if Dbl.le p (fin 0.0) then Vl
  else if Dbl.ge p (fin 1.0) then Vh
  else
    let r := GetQuantile_loop d p 0 Vh Vl
    if r.1 ≥ 70 then fin (-9999) else r.2

/-- `double GetMu(void)` -/
def GetMu (d : LogNormal_Distribution) : Dbl := d.Mu

/-- `double GetSigma(void)` -/
def GetSigma (d : LogNormal_Distribution) : Dbl := d.Sigma

/-- `void SetMu(double _Mu)` -/
def SetMu (d : LogNormal_Distribution) (_Mu : Dbl) : LogNormal_Distribution :=
  { d with Mu := _Mu }

/-- `void SetSigma(double _Sigma)` -/
def SetSigma (d : LogNormal_Distribution) (_Sigma : Dbl) : LogNormal_Distribution :=
  let error : Int := 1
  let error : Int := if Dbl.le _Sigma (fin 0) then -2 else error
  { d with error := error, Sigma := _Sigma }

end LogNormal_Distribution

/-- Closed form, on the reals, of what `GetCDF` computes for a valid object with finite
parameters `m`, `s` at a finite argument `x ≥ 0`: at `x = 0` the C library gives
`log(0) = -inf` and `erf(-inf) = -1`, hence `0`. -/
def cdfVal (m s x : ℝ) : ℝ :=
  if x = 0 then 0
  else 0.5 * (1.0 + Dbl.erfReal (0.70710678118654752440 * ((Real.log x - m) / s)))

/-- States reachable from the constructor by `SetMu` / `SetSigma` calls with real arguments. -/
inductive Reachable : LogNormal_Distribution → Prop where
  | ctor (m s : ℝ) : Reachable (LogNormal_Distribution.ctor (fin m) (fin s))
  | setMu (d : LogNormal_Distribution) (v : ℝ) : Reachable d → Reachable (d.SetMu (fin v))
  | setSigma (d : LogNormal_Distribution) (v : ℝ) :
      Reachable d → Reachable (d.SetSigma (fin v))

/-- Every query of the object `d` (the density and the CDF at `x`, the quantile at `p`, and
the six moment queries) returns the double `v`. -/
def AllQueriesReturn (d : LogNormal_Distribution) (x p v : Dbl) : Prop :=
  d.GetPDF x = v ∧ d.GetCDF x = v ∧ d.GetQuantile p = v ∧ d.GetMean = v ∧
    d.GetVariance = v ∧ d.GetStdDeviation = v ∧ d.GetSkewness = v ∧ d.GetKurtosis = v ∧
    d.GetEntropy = v

/-! ## Arithmetic of finite doubles -/

namespace Dbl

@[simp] theorem fin_add (a b : ℝ) : fin a + fin b = fin (a + b) := rfl

@[simp] theorem fin_sub (a b : ℝ) : fin a - fin b = fin (a - b) := by
  show add (fin a) (neg (fin b)) = fin (a - b)
  simp [add, neg, sub_eq_add_neg]

@[simp] theorem fin_mul (a b : ℝ) : fin a * fin b = fin (a * b) := rfl

@[simp] theorem neg_fin (a : ℝ) : -(fin a) = fin (-a) := rfl

theorem fin_div (a b : ℝ) (hb : b ≠ 0) : fin a / fin b = fin (a / b) := by
  show div (fin a) (fin b) = fin (a / b)
  simp [div, hb]

@[simp] theorem fin_div_two (a : ℝ) : fin a / fin 2 = fin (a / 2) :=
  fin_div a 2 two_ne_zero

@[simp] theorem gt_fin (a b : ℝ) : gt (fin a) (fin b) ↔ b < a := Iff.rfl

@[simp] theorem le_fin (a b : ℝ) : le (fin a) (fin b) ↔ a ≤ b := Iff.rfl

@[simp] theorem ge_fin (a b : ℝ) : ge (fin a) (fin b) ↔ b ≤ a := Iff.rfl

@[simp] theorem abs_fin (a : ℝ) : abs (fin a) = fin |a| := by
  unfold abs
  by_cases h : 0 < a
  · simp [h, abs_of_pos h]
  · simp [h, abs_of_nonpos (not_lt.mp h)]

@[simp] theorem exp_fin (a : ℝ) : exp (fin a) = fin (Real.exp a) := rfl

theorem log_fin_pos (a : ℝ) (h : 0 < a) : log (fin a) = fin (Real.log a) := by
  simp [log, h]

@[simp] theorem log_fin_zero : log (fin 0) = ninf := by
  simp [log]

theorem sqrt_fin (a : ℝ) (h : 0 ≤ a) : sqrt (fin a) = fin (Real.sqrt a) := by
  simp [sqrt, h]

@[simp] theorem pow_fin (a : ℝ) (n : Nat) : pow (fin a) n = fin (a ^ n) := rfl

@[simp] theorem erf_fin (a : ℝ) : erf (fin a) = fin (erfReal a) := rfl

@[simp] theorem ofInt_eq (n : Int) : ofInt n = fin (n : ℝ) := rfl

theorem fin_inj {a b : ℝ} : fin a = fin b ↔ a = b :=
  ⟨fun h => by injection h, fun h => by rw [h]⟩

/-! ## The error function -/

theorem erfReal_zero : erfReal 0 = 0 := by
  simp [erfReal]

theorem gauss_intervalIntegrable (a b : ℝ) :
    IntervalIntegrable (fun t : ℝ => Real.exp (-(t ^ 2))) MeasureTheory.volume a b :=
  (by fun_prop : Continuous fun t : ℝ => Real.exp (-(t ^ 2))).intervalIntegrable a b

theorem erfReal_mono {x y : ℝ} (h : x ≤ y) : erfReal x ≤ erfReal y := by
  unfold erfReal
  have hc : (0 : ℝ) ≤ 2 / Real.sqrt Real.pi := by positivity
  apply mul_le_mul_of_nonneg_left _ hc
  have hsplit := intervalIntegral.integral_add_adjacent_intervals
    (gauss_intervalIntegrable 0 x) (gauss_intervalIntegrable x y)
  have hnn : 0 ≤ ∫ t in x..y, Real.exp (-(t ^ 2)) :=
    intervalIntegral.integral_nonneg h (fun t _ => (Real.exp_pos _).le)
  linarith

end Dbl

namespace Dbl

/-- A crude lower bound: `erf x ≥ 1/10` as soon as `x ≥ 2/5`. -/
theorem erfReal_ge_tenth {x : ℝ} (hx : 2 / 5 ≤ x) : 1 / 10 ≤ erfReal x := by
  refine le_trans ?_ (erfReal_mono hx)
  unfold erfReal
  have hint : (2 / 5 : ℝ) * (21 / 25) ≤ ∫ t in (0 : ℝ)..(2 / 5), Real.exp (-(t ^ 2)) := by
    have hconst : (∫ _t in (0 : ℝ)..(2 / 5), (21 / 25 : ℝ)) = (2 / 5) * (21 / 25) := by
      rw [intervalIntegral.integral_const]; simp
    rw [← hconst]
    apply intervalIntegral.integral_mono_on (by norm_num)
      (intervalIntegrable_const) (gauss_intervalIntegrable _ _)
    intro t ht
    have h1 := Real.add_one_le_exp (-(t ^ 2))
    have h2 : t ^ 2 ≤ (2 / 5) ^ 2 := pow_le_pow_left₀ ht.1 ht.2 2
    nlinarith
  have hsqrt : Real.sqrt Real.pi ≤ 2 := by
    rw [Real.sqrt_le_left (by norm_num)]
    nlinarith [Real.pi_le_four]
  have hpos : 0 < Real.sqrt Real.pi := Real.sqrt_pos.mpr Real.pi_pos
  have hc : (1 : ℝ) ≤ 2 / Real.sqrt Real.pi := by
    rw [le_div_iff₀ hpos]; linarith
  nlinarith

end Dbl

/-! ## Evaluation of the queries on a valid object -/

namespace LogNormal_Distribution

theorem ctor_error_pos (m s : ℝ) (hs : 0 < s) : (ctor (fin m) (fin s)).error = 1 := by
  simp [ctor, not_le.mpr hs]

theorem ctor_error_nonpos (m s : ℝ) (hs : s ≤ 0) : (ctor (fin m) (fin s)).error = -2 := by
  simp [ctor, hs]

@[simp] theorem ctor_Mu (a b : Dbl) : (ctor a b).Mu = a := rfl

@[simp] theorem ctor_Sigma (a b : Dbl) : (ctor a b).Sigma = b := rfl

theorem GetCDF_pos (m s x : ℝ) (hs : 0 < s) (hx : 0 < x) :
    (ctor (fin m) (fin s)).GetCDF (fin x) = fin (cdfVal m s x) := by
  simp [GetCDF, ctor_error_pos m s hs, Dbl.log_fin_pos x hx, Dbl.fin_div _ _ hs.ne',
    M_SQRT1_2, cdfVal, hx.ne']

theorem GetCDF_zero (m s : ℝ) (hs : 0 < s) :
    (ctor (fin m) (fin s)).GetCDF (fin 0) = fin (cdfVal m s 0) := by
  have h1 : (ninf - fin m : Dbl) = ninf := rfl
  have h2 : (ninf / fin s : Dbl) = ninf := by
    show Dbl.div ninf (fin s) = ninf
    simp [Dbl.div, hs.le]
  have h3 : (M_SQRT1_2 * ninf : Dbl) = ninf := by
    show Dbl.mul (fin 0.70710678118654752440) ninf = ninf
    simp only [Dbl.mul, Dbl.infTimes]
    norm_num
  have h4 : Dbl.erf ninf = fin (-1) := rfl
  simp only [GetCDF, ctor_error_pos m s hs, ctor_Mu, ctor_Sigma, Dbl.log_fin_zero, h1, h2, h3,
    h4, cdfVal, Dbl.fin_add, Dbl.fin_mul]
  norm_num

theorem GetCDF_nonneg_arg (m s x : ℝ) (hs : 0 < s) (hx : 0 ≤ x) :
    (ctor (fin m) (fin s)).GetCDF (fin x) = fin (cdfVal m s x) := by
  rcases hx.eq_or_lt with h | h
  · rw [← h]; exact GetCDF_zero m s hs
  · exact GetCDF_pos m s x hs h

end LogNormal_Distribution

/-! ## The bisection loop of `GetQuantile` -/

namespace LogNormal_Distribution

/-- One pass through the body of the loop, on a valid object and a bracket whose midpoint is
not negative. -/
theorem GetQuantile_loop_step (m s p hi lo : ℝ) (i : Nat) (hs : 0 < s)
    (hmid : 0 ≤ (hi + lo) / 2) :
    (ctor (fin m) (fin s)).GetQuantile_loop (fin p) i (fin hi) (fin lo) =
      if 0.0000001 < |cdfVal m s ((hi + lo) / 2) - p| ∧ i + 1 < 70 then
        (ctor (fin m) (fin s)).GetQuantile_loop (fin p) (i + 1)
          (fin (if p < cdfVal m s ((hi + lo) / 2) then (hi + lo) / 2 else hi))
          (fin (if p < cdfVal m s ((hi + lo) / 2) then lo else (hi + lo) / 2))
      else (i + 1, fin ((hi + lo) / 2)) := by
  rw [GetQuantile_loop]
  simp only [Dbl.fin_add, Dbl.fin_div_two, GetCDF_nonneg_arg m s _ hs hmid, Dbl.fin_sub,
    Dbl.abs_fin, CONSTANT_EpsStop, Dbl.gt_fin]
  by_cases hc : p < cdfVal m s ((hi + lo) / 2) <;> simp [hc]

/-- The loop terminates with a finite midpoint inside the bracket it was entered with; when
it stops before the 70th pass, the CDF at that midpoint is within the tolerance of `p`. -/
theorem GetQuantile_loop_spec (m s p : ℝ) (hs : 0 < s) :
    ∀ (n i : Nat) (hi lo : ℝ), 70 - i ≤ n → 0 ≤ lo → lo ≤ hi →
      ∃ (j : Nat) (v : ℝ),
        (ctor (fin m) (fin s)).GetQuantile_loop (fin p) i (fin hi) (fin lo) = (j, fin v) ∧
        i < j ∧ lo ≤ v ∧ v ≤ hi ∧ (j < 70 → |cdfVal m s v - p| ≤ 0.0000001) := by
  intro n
  induction n with
  | zero =>
    intro i hi lo hn hlo hle
    have hmid : 0 ≤ (hi + lo) / 2 := by linarith
    refine ⟨i + 1, (hi + lo) / 2, ?_, by omega, by linarith, by linarith, fun h => by omega⟩
    rw [GetQuantile_loop_step m s p hi lo i hs hmid, if_neg]
    rintro ⟨-, h⟩
    omega
  | succ n ih =>
    intro i hi lo hn hlo hle
    have hmid : 0 ≤ (hi + lo) / 2 := by linarith
    rw [GetQuantile_loop_step m s p hi lo i hs hmid]
    by_cases hcond : 0.0000001 < |cdfVal m s ((hi + lo) / 2) - p| ∧ i + 1 < 70
    · rw [if_pos hcond]
      by_cases hc : p < cdfVal m s ((hi + lo) / 2)
      · simp only [if_pos hc]
        obtain ⟨j, v, he, hij, h1, h2, h3⟩ :=
          ih (i + 1) ((hi + lo) / 2) lo (by omega) hlo (by linarith)
        exact ⟨j, v, he, by omega, h1, by linarith, h3⟩
      · simp only [if_neg hc]
        obtain ⟨j, v, he, hij, h1, h2, h3⟩ :=
          ih (i + 1) hi ((hi + lo) / 2) (by omega) hmid (by linarith)
        exact ⟨j, v, he, by omega, by linarith, h2, h3⟩
    · rw [if_neg hcond]
      refine ⟨i + 1, (hi + lo) / 2, rfl, by omega, by linarith, by linarith, fun h => ?_⟩
      by_contra hgt
      exact hcond ⟨not_le.mp hgt, h⟩

/-- The first pass of the loop of `GetQuantile`: the midpoint of `[-16, 16]` is `0`, where the
CDF is `0`. -/
theorem GetQuantile_loop_first (m s p : ℝ) (hs : 0 < s) (hp : 0 < p) :
    (ctor (fin m) (fin s)).GetQuantile_loop (fin p) 0 (fin 16) (fin (-16)) =
      if 0.0000001 < p then
        (ctor (fin m) (fin s)).GetQuantile_loop (fin p) 1 (fin 16) (fin 0)
      else (1, fin 0) := by
  have hmid : (0 : ℝ) ≤ (16 + -16) / 2 := by norm_num
  rw [GetQuantile_loop_step m s p 16 (-16) 0 hs hmid]
  have h0 : ((16 : ℝ) + -16) / 2 = 0 := by norm_num
  have hc : cdfVal m s 0 = 0 := by simp [cdfVal]
  simp only [h0, hc, zero_sub, abs_neg, abs_of_pos hp, not_lt.mpr hp.le, if_false]
  norm_num

/-- On a valid object and `0 < p < 1`, `GetQuantile` runs the loop. -/
theorem GetQuantile_valid (m s p : ℝ) (hs : 0 < s) (hp0 : 0 < p) (hp1 : p < 1) :
    (ctor (fin m) (fin s)).GetQuantile (fin p) =
      if ((ctor (fin m) (fin s)).GetQuantile_loop (fin p) 0 (fin 16) (fin (-16))).1 ≥ 70
      then fin (-9999)
      else ((ctor (fin m) (fin s)).GetQuantile_loop (fin p) 0 (fin 16) (fin (-16))).2 := by
  unfold GetQuantile
  have h1 : ¬ p ≤ 0.0 := by norm_num; exact hp0
  have h2 : ¬ (1.0 : ℝ) ≤ p := by norm_num; exact hp1
  simp only [ctor_error_pos m s hs, Dbl.le_fin, Dbl.ge_fin, h1, h2, if_false]
  simp

/-- Summary of `GetQuantile` on a valid object and `0 < p < 1`: the result is finite; it is
either the sentinel or a point of `[0, 16]` where the CDF is within the tolerance of `p`. -/
theorem GetQuantile_valid_spec (m s p : ℝ) (hs : 0 < s) (hp0 : 0 < p) (hp1 : p < 1) :
    ∃ q : ℝ, (ctor (fin m) (fin s)).GetQuantile (fin p) = fin q ∧
      (q = -9999 ∨ (0 ≤ q ∧ q ≤ 16 ∧ |cdfVal m s q - p| ≤ 0.0000001)) := by
  rw [GetQuantile_valid m s p hs hp0 hp1, GetQuantile_loop_first m s p hs hp0]
  by_cases hp : 0.0000001 < p
  · rw [if_pos hp]
    obtain ⟨j, v, he, -, h1, h2, h3⟩ :=
      GetQuantile_loop_spec m s p hs 70 1 16 0 (by omega) le_rfl (by norm_num)
    rw [he]
    by_cases hj : j ≥ 70
    · exact ⟨-9999, by simp [hj], Or.inl rfl⟩
    · exact ⟨v, by simp [hj], Or.inr ⟨h1, h2, h3 (by omega)⟩⟩
  · rw [if_neg hp]
    refine ⟨0, by simp, Or.inr ⟨le_rfl, by norm_num, ?_⟩⟩
    have hc : cdfVal m s 0 = 0 := by simp [cdfVal]
    rw [hc, zero_sub, abs_neg, abs_of_pos hp0]
    exact not_lt.mp hp

end LogNormal_Distribution

/-! ## Tracing the loop for `Sigma = 1`, `p = 1/2` and median `x0` -/

namespace LogNormal_Distribution

theorem cdfVal_median (x0 : ℝ) (hx0 : 0 < x0) : cdfVal (Real.log x0) 1 x0 = 1 / 2 := by
  simp [cdfVal, hx0.ne', Dbl.erfReal_zero]
  norm_num

theorem cdfVal_far_above_median (x0 x : ℝ) (hx0 : 0 < x0) (hx : 2 * x0 ≤ x) :
    1 / 2 + 1 / 20 ≤ cdfVal (Real.log x0) 1 x := by
  have hxpos : 0 < x := by linarith
  have hlog : Real.log 2 ≤ Real.log x - Real.log x0 := by
    rw [← Real.log_div hxpos.ne' hx0.ne']
    apply Real.log_le_log (by norm_num)
    rw [le_div_iff₀ hx0]; exact hx
  have h2 := Real.log_two_gt_d9
  have harg : (2 : ℝ) / 5 ≤ 0.70710678118654752440 * ((Real.log x - Real.log x0) / 1) := by
    rw [div_one]
    nlinarith
  have herf := Dbl.erfReal_ge_tenth harg
  simp only [cdfVal, hxpos.ne', if_false]
  linarith

/-- A pass whose midpoint is at least twice the median halves the bracket from above. -/
theorem GetQuantile_loop_descend (x0 hi : ℝ) (i : Nat) (hx0 : 0 < x0)
    (hhi : 2 * x0 ≤ hi / 2) (hi70 : i + 1 < 70) :
    (ctor (fin (Real.log x0)) (fin 1)).GetQuantile_loop (fin (1 / 2)) i (fin hi) (fin 0) =
      (ctor (fin (Real.log x0)) (fin 1)).GetQuantile_loop (fin (1 / 2)) (i + 1)
        (fin (hi / 2)) (fin 0) := by
  have hmid : (0 : ℝ) ≤ (hi + 0) / 2 := by rw [add_zero]; linarith
  rw [GetQuantile_loop_step (Real.log x0) 1 (1 / 2) hi 0 i one_pos hmid, add_zero]
  have hc := cdfVal_far_above_median x0 (hi / 2) hx0 hhi
  have hlt : (1 : ℝ) / 2 < cdfVal (Real.log x0) 1 (hi / 2) := by linarith
  have heps : (0.0000001 : ℝ) < |cdfVal (Real.log x0) 1 (hi / 2) - 1 / 2| := by
    rw [abs_of_pos (by linarith)]
    norm_num
    linarith
  rw [if_pos ⟨heps, hi70⟩, if_pos hlt, if_pos hlt]

/-- A pass whose midpoint is the median stops the loop. -/
theorem GetQuantile_loop_hit (x0 hi : ℝ) (i : Nat) (hx0 : 0 < x0) (hhi : hi / 2 = x0) :
    (ctor (fin (Real.log x0)) (fin 1)).GetQuantile_loop (fin (1 / 2)) i (fin hi) (fin 0) =
      (i + 1, fin x0) := by
  have hmid : (0 : ℝ) ≤ (hi + 0) / 2 := by rw [add_zero, hhi]; exact hx0.le
  rw [GetQuantile_loop_step (Real.log x0) 1 (1 / 2) hi 0 i one_pos hmid, add_zero, hhi,
    cdfVal_median x0 hx0, if_neg]
  rintro ⟨h, -⟩
  norm_num at h

/-- With median `2^-65`, passes `k .. 69` all move the upper end down and pass 70 lands on
the median. -/
theorem GetQuantile_loop_chain :
    ∀ (j k : Nat), k + j = 69 → 1 ≤ k →
      (ctor (fin (Real.log (1 / 2 ^ 65))) (fin 1)).GetQuantile_loop (fin (1 / 2)) k
        (fin (32 / 2 ^ k)) (fin 0) = (70, fin (1 / 2 ^ 65)) := by
  have hx0 : (0 : ℝ) < 1 / 2 ^ 65 := by positivity
  intro j
  induction j with
  | zero =>
    intro k hk _
    have hk69 : k = 69 := by omega
    subst hk69
    exact GetQuantile_loop_hit (1 / 2 ^ 65) (32 / 2 ^ 69) 69 hx0 (by norm_num)
  | succ j ih =>
    intro k hk hk1
    have hle : k + 1 ≤ 69 := by omega
    have hpow : (2 : ℝ) ^ (k + 1) ≤ 2 ^ 69 := pow_le_pow_right₀ (by norm_num) hle
    have hkpos : (0 : ℝ) < 2 ^ k := by positivity
    have hhalf : (32 : ℝ) / 2 ^ k / 2 = 32 / 2 ^ (k + 1) := by
      rw [pow_succ]; field_simp
    have hhi : 2 * ((1 : ℝ) / 2 ^ 65) ≤ 32 / 2 ^ k / 2 := by
      have hk1pos : (0 : ℝ) < 2 ^ (k + 1) := by positivity
      rw [hhalf, le_div_iff₀ hk1pos]
      calc 2 * ((1 : ℝ) / 2 ^ 65) * 2 ^ (k + 1) ≤ 2 * (1 / 2 ^ 65) * 2 ^ 69 :=
            mul_le_mul_of_nonneg_left hpow (by positivity)
        _ = 32 := by norm_num
    rw [GetQuantile_loop_descend (1 / 2 ^ 65) (32 / 2 ^ k) k hx0 hhi (by omega), hhalf]
    exact ih (k + 1) (by omega) (by omega)

end LogNormal_Distribution

namespace LogNormal_Distribution

/-- For `Mu = 0`, `Sigma = 1`, `p = 1/2` the midpoints are `0, 8, 4, 2, 1` and the fifth pass
stops the loop at `1`. -/
theorem GetQuantile_standard_half :
    (ctor (fin 0) (fin 1)).GetQuantile (fin (1 / 2)) = fin 1 := by
  have hloop : (ctor (fin (Real.log 1)) (fin 1)).GetQuantile_loop (fin (1 / 2)) 1
      (fin 16) (fin 0) = (5, fin 1) := by
    rw [GetQuantile_loop_descend 1 16 1 one_pos (by norm_num) (by norm_num),
      GetQuantile_loop_descend 1 (16 / 2) 2 one_pos (by norm_num) (by norm_num),
      GetQuantile_loop_descend 1 (16 / 2 / 2) 3 one_pos (by norm_num) (by norm_num),
      GetQuantile_loop_hit 1 (16 / 2 / 2 / 2) 4 one_pos (by norm_num)]
  rw [Real.log_one] at hloop
  rw [GetQuantile_valid 0 1 (1 / 2) one_pos (by norm_num) (by norm_num),
    GetQuantile_loop_first 0 1 (1 / 2) one_pos (by norm_num),
    if_pos (show (0.0000001 : ℝ) < 1 / 2 by norm_num), hloop]
  simp

end LogNormal_Distribution

/-! ## The claims -/

namespace LogNormal_Distribution

/-- C1 (round trip): on an object with `Sigma > 0` and for `0 < p < 1`, `GetQuantile(p)`
returns a finite value `q`, and when `q` is not the non-convergence sentinel `-9999` the CDF
at `q` is within `CONSTANT_EpsStop = 1e-7` of `p`. -/
theorem C1_quantile_round_trip (m s p : ℝ) (hs : 0 < s) (hp0 : 0 < p) (hp1 : p < 1) :
    ∃ q : ℝ, (ctor (fin m) (fin s)).GetQuantile (fin p) = fin q ∧
      (q ≠ -9999 →
        ∃ c : ℝ, (ctor (fin m) (fin s)).GetCDF (fin q) = fin c ∧ |c - p| ≤ 0.0000001) := by
  obtain ⟨q, hq, h⟩ := GetQuantile_valid_spec m s p hs hp0 hp1
  refine ⟨q, hq, fun hne => ?_⟩
  rcases h with h | ⟨h0, -, htol⟩
  · exact absurd h hne
  · exact ⟨cdfVal m s q, GetCDF_nonneg_arg m s q hs h0, htol⟩

/-- Witness of C1 at `Mu = 0`, `Sigma = 1`, `p = 1/2`. -/
theorem C1_quantile_round_trip_witness :
    ∃ q : ℝ, (ctor (fin 0) (fin 1)).GetQuantile (fin (1 / 2)) = fin q ∧
      (q ≠ -9999 →
        ∃ c : ℝ, (ctor (fin 0) (fin 1)).GetCDF (fin q) = fin c ∧ |c - 1 / 2| ≤ 0.0000001) :=
  C1_quantile_round_trip 0 1 (1 / 2) (by norm_num) (by norm_num) (by norm_num)

/-- C2 (saturation): on an object with `Sigma > 0`, `GetQuantile(p)` is exactly `-16` for
every `p <= 0` and exactly `16` for every `p >= 1` (infinite `p` included); in particular
`GetQuantile(0) = -16`, `GetQuantile(1) = 16`, and `-9999` is not returned for such `p`. -/
theorem C2_quantile_saturation (m s : ℝ) (p : Dbl) (hs : 0 < s) :
    (Dbl.le p (fin 0) → (ctor (fin m) (fin s)).GetQuantile p = fin (-16)) ∧
    (Dbl.ge p (fin 1) → (ctor (fin m) (fin s)).GetQuantile p = fin 16) ∧
    (ctor (fin m) (fin s)).GetQuantile (fin 0) = fin (-16) ∧
    (ctor (fin m) (fin s)).GetQuantile (fin 1) = fin 16 ∧
    (Dbl.le p (fin 0) ∨ Dbl.ge p (fin 1) →
      (ctor (fin m) (fin s)).GetQuantile p ≠ fin (-9999)) := by
  have hlow : ∀ q : Dbl, Dbl.le q (fin 0) →
      (ctor (fin m) (fin s)).GetQuantile q = fin (-16) := by
    intro q hq
    have hq' : Dbl.le q (fin 0.0) := by norm_num; exact hq
    simp [GetQuantile, ctor_error_pos m s hs, hq']
  have hhigh : ∀ q : Dbl, Dbl.ge q (fin 1) →
      (ctor (fin m) (fin s)).GetQuantile q = fin 16 := by
    intro q hq
    have hq' : Dbl.ge q (fin 1.0) := by norm_num; exact hq
    have hn : ¬ Dbl.le q (fin 0.0) := by
      cases q with
      | fin r =>
        have h1 : (1 : ℝ) ≤ r := hq
        simp only [Dbl.le_fin]
        norm_num
        linarith
      | pinf => exact fun h => h
      | ninf => exact absurd hq (fun h => h)
      | nan => exact fun h => h
    simp [GetQuantile, ctor_error_pos m s hs, hq', hn]
  refine ⟨hlow p, hhigh p, hlow _ ?_, hhigh _ ?_, ?_⟩
  · exact (Dbl.le_fin 0 0).mpr le_rfl
  · exact (Dbl.ge_fin 1 1).mpr le_rfl
  · rintro (h | h)
    · rw [hlow p h, Ne, Dbl.fin_inj]; norm_num
    · rw [hhigh p h, Ne, Dbl.fin_inj]; norm_num

/-- Witness of C2 at `Mu = 0`, `Sigma = 1`, `p = -3`. -/
theorem C2_quantile_saturation_witness :
    (ctor (fin 0) (fin 1)).GetQuantile (fin (-3)) = fin (-16) :=
  (C2_quantile_saturation 0 1 (fin (-3)) (by norm_num)).1
    ((Dbl.le_fin (-3) 0).mpr (by norm_num))

/-- C3 (failing input): for `Mu = ln(2^-65)`, `Sigma = 1`, `p = 1/2` the loop makes 70 passes,
its 70th midpoint is `2^-65`, where `GetCDF` equals `p` exactly (so the tolerance is met),
and `GetQuantile` nevertheless returns the non-convergence sentinel `-9999`. -/
theorem C3_sentinel_although_pass_70_converged :
    (ctor (fin (Real.log (1 / 2 ^ 65))) (fin 1)).GetQuantile_loop (fin (1 / 2)) 0
        (fin 16) (fin (-16)) = (70, fin (1 / 2 ^ 65)) ∧
    (ctor (fin (Real.log (1 / 2 ^ 65))) (fin 1)).GetCDF (fin (1 / 2 ^ 65)) = fin (1 / 2) ∧
    (ctor (fin (Real.log (1 / 2 ^ 65))) (fin 1)).GetQuantile (fin (1 / 2)) = fin (-9999) := by
  have hx0 : (0 : ℝ) < 1 / 2 ^ 65 := by positivity
  have hloop : (ctor (fin (Real.log (1 / 2 ^ 65))) (fin 1)).GetQuantile_loop (fin (1 / 2)) 0
      (fin 16) (fin (-16)) = (70, fin (1 / 2 ^ 65)) := by
    rw [GetQuantile_loop_first _ 1 (1 / 2) one_pos (by norm_num), if_pos (by norm_num)]
    have h16 : (fin 16 : Dbl) = fin (32 / 2 ^ 1) := by norm_num
    rw [h16]
    exact GetQuantile_loop_chain 68 1 rfl le_rfl
  refine ⟨hloop, ?_, ?_⟩
  · rw [GetCDF_pos _ 1 _ one_pos hx0, cdfVal_median _ hx0]
  · rw [GetQuantile_valid _ 1 (1 / 2) one_pos (by norm_num) (by norm_num), hloop]
    simp

/-- C7 (reference quantile): for `Mu = 0`, `Sigma = 1`, `GetQuantile(0.5)` returns a value
within `1e-7` of `exp(0) = 1` (it is `1` exactly) and not `-9999`; the first midpoint `0` is
evaluated with `log(0) = -inf` and `erf(-inf) = -1`, so that `GetCDF(0) = 0`. -/
theorem C7_quantile_half_standard :
    ∃ q : ℝ, (ctor (fin 0) (fin 1)).GetQuantile (fin 0.5) = fin q ∧
      |q - Real.exp 0| ≤ 0.0000001 ∧ q ≠ -9999 ∧
      Dbl.log (fin 0) = ninf ∧ Dbl.erf ninf = fin (-1) ∧
      (ctor (fin 0) (fin 1)).GetCDF (fin 0) = fin 0 := by
  have hp : (0.5 : ℝ) = 1 / 2 := by norm_num
  refine ⟨1, ?_, ?_, by norm_num, Dbl.log_fin_zero, rfl, ?_⟩
  · rw [hp]; exact GetQuantile_standard_half
  · rw [Real.exp_zero]; norm_num
  · rw [GetCDF_zero 0 1 one_pos]; simp [cdfVal]

/-- C4 (counterexample): for `Mu = 0`, `Sigma = 1`, `p = 1/2` the returned value is `q = 1`,
which is not the sentinel, yet `GetCDF(exp(q))` is not within `1e-7` of `p`. -/
theorem C4_counterexample :
    (ctor (fin 0) (fin 1)).GetQuantile (fin (1 / 2)) = fin 1 ∧ (1 : ℝ) ≠ -9999 ∧
    ¬ ∃ c : ℝ, (ctor (fin 0) (fin 1)).GetCDF (Dbl.exp (fin 1)) = fin c ∧
        |c - 1 / 2| ≤ 0.0000001 := by
  refine ⟨GetQuantile_standard_half, by norm_num, ?_⟩
  rintro ⟨c, hc, habs⟩
  rw [Dbl.exp_fin, GetCDF_pos 0 1 _ one_pos (Real.exp_pos 1), Dbl.fin_inj] at hc
  have hfar : 1 / 2 + 1 / 20 ≤ cdfVal (Real.log 1) 1 (Real.exp 1) := by
    apply cdfVal_far_above_median 1 (Real.exp 1) one_pos
    have := Real.add_one_le_exp 1
    linarith
  rw [Real.log_one, hc] at hfar
  rw [abs_of_pos (by linarith)] at habs
  norm_num at habs
  linarith

/-- C4 (amended): each pass of the loop evaluates `GetCDF` at the midpoint of the bracket
itself (no `exp` is applied), for every bracket `GetQuantile` visits, that is the initial
`[-16, 16]` (with `p > 0`) and every `0 <= Vl <= Vh`: with `c = GetCDF((Vh + Vl) / 2)`, the
loop stops at that midpoint when `|c - p| <= 1e-7` or the counter reaches 70, and otherwise
goes on with the upper end (if `c > p`) or the lower end moved to the midpoint; and whenever
the loop ends before its 70th pass at a midpoint `v`, `|GetCDF(v) - p| <= 1e-7`. -/
theorem C4_bisection_evaluates_cdf_at_midpoint (m s p hi lo : ℝ) (i : Nat) (hs : 0 < s)
    (hb : (0 ≤ lo ∧ lo ≤ hi) ∨ (hi = 16 ∧ lo = -16 ∧ 0 < p)) :
    (∃ c : ℝ, (ctor (fin m) (fin s)).GetCDF (fin ((hi + lo) / 2)) = fin c ∧
      (ctor (fin m) (fin s)).GetQuantile_loop (fin p) i (fin hi) (fin lo) =
        if 0.0000001 < |c - p| ∧ i + 1 < 70 then
          (ctor (fin m) (fin s)).GetQuantile_loop (fin p) (i + 1)
            (fin (if p < c then (hi + lo) / 2 else hi))
            (fin (if p < c then lo else (hi + lo) / 2))
        else (i + 1, fin ((hi + lo) / 2))) ∧
    (∃ (j : Nat) (v c : ℝ),
      (ctor (fin m) (fin s)).GetQuantile_loop (fin p) i (fin hi) (fin lo) = (j, fin v) ∧
      (ctor (fin m) (fin s)).GetCDF (fin v) = fin c ∧
      (j < 70 → |c - p| ≤ 0.0000001)) := by
  have hmid : 0 ≤ (hi + lo) / 2 := by
    rcases hb with ⟨h1, h2⟩ | ⟨h1, h2, -⟩
    · linarith
    · rw [h1, h2]; norm_num
  refine ⟨⟨cdfVal m s ((hi + lo) / 2), GetCDF_nonneg_arg m s _ hs hmid,
    GetQuantile_loop_step m s p hi lo i hs hmid⟩, ?_⟩
  rcases hb with ⟨hlo, hle⟩ | ⟨rfl, rfl, hp⟩
  · obtain ⟨j, v, he, -, h1, -, h3⟩ :=
      GetQuantile_loop_spec m s p hs 70 i hi lo (by omega) hlo hle
    exact ⟨j, v, cdfVal m s v, he, GetCDF_nonneg_arg m s v hs (by linarith), h3⟩
  · have h0 : ((16 : ℝ) + -16) / 2 = 0 := by norm_num
    have hc : cdfVal m s 0 = 0 := by simp [cdfVal]
    rw [GetQuantile_loop_step m s p 16 (-16) i hs hmid, h0, hc]
    by_cases hcond : 0.0000001 < |0 - p| ∧ i + 1 < 70
    · rw [if_pos hcond, if_neg (not_lt.mpr hp.le), if_neg (not_lt.mpr hp.le)]
      obtain ⟨j, v, he, -, h1, -, h3⟩ :=
        GetQuantile_loop_spec m s p hs 70 (i + 1) 16 0 (by omega) le_rfl (by norm_num)
      exact ⟨j, v, cdfVal m s v, he, GetCDF_nonneg_arg m s v hs h1, h3⟩
    · rw [if_neg hcond]
      refine ⟨i + 1, 0, 0, rfl, ?_, fun hj => ?_⟩
      · rw [GetCDF_zero m s hs, hc]
      · by_contra hgt
        exact hcond ⟨not_le.mp hgt, hj⟩

/-- Witness of C4 (amended) at `Mu = 0`, `Sigma = 1`, `p = 1/2` and the initial bracket
`[-16, 16]` with counter `0`. -/
theorem C4_bisection_evaluates_cdf_at_midpoint_witness :
    ∃ (j : Nat) (v c : ℝ),
      (ctor (fin 0) (fin 1)).GetQuantile_loop (fin (1 / 2)) 0 (fin 16) (fin (-16))
        = (j, fin v) ∧
      (ctor (fin 0) (fin 1)).GetCDF (fin v) = fin c ∧
      (j < 70 → |c - 1 / 2| ≤ 0.0000001) :=
  (C4_bisection_evaluates_cdf_at_midpoint 0 1 (1 / 2) 16 (-16) 0 (by norm_num)
    (Or.inr ⟨rfl, rfl, by norm_num⟩)).2

theorem allQueries_of_error (d : LogNormal_Distribution) (x p : Dbl) (h : d.error = -2) :
    AllQueriesReturn d x p (fin (-2)) := by
  simp [AllQueriesReturn, GetPDF, GetCDF, GetQuantile, GetMean, GetVariance, GetStdDeviation,
    GetSkewness, GetKurtosis, GetEntropy, h]

theorem SetSigma_error_nonpos (d : LogNormal_Distribution) (s : ℝ) (hs : s ≤ 0) :
    (d.SetSigma (fin s)).error = -2 := by
  simp [SetSigma, hs]

theorem SetSigma_error_pos (d : LogNormal_Distribution) (s : ℝ) (hs : 0 < s) :
    (d.SetSigma (fin s)).error = 1 := by
  simp [SetSigma, not_le.mpr hs]

/-- C5 (invalidity propagation): for every `Mu` and every `Sigma <= 0`, whether set by the
constructor or by `SetSigma` on any object, every query returns the sentinel `-2`: `GetPDF`
and `GetCDF` at every `x`, `GetQuantile` at every `p` (also `p <= 0` and `p >= 1`, where
`-2` wins over the saturation values), and the six moment queries. -/
theorem C5_invalid_queries_return_error (d0 : LogNormal_Distribution) (m s : ℝ) (x p : Dbl)
    (hs : s ≤ 0) :
    AllQueriesReturn (ctor (fin m) (fin s)) x p (fin (-2)) ∧
    AllQueriesReturn (d0.SetSigma (fin s)) x p (fin (-2)) ∧
    (ctor (fin m) (fin s)).GetQuantile (fin 0) = fin (-2) ∧
    (ctor (fin m) (fin s)).GetQuantile (fin 1) = fin (-2) :=
  ⟨allQueries_of_error _ x p (ctor_error_nonpos m s hs),
    allQueries_of_error _ x p (SetSigma_error_nonpos d0 s hs),
    (allQueries_of_error _ x (fin 0) (ctor_error_nonpos m s hs)).2.2.1,
    (allQueries_of_error _ x (fin 1) (ctor_error_nonpos m s hs)).2.2.1⟩

/-- Witness of C5 at `Mu = 3`, `Sigma = 0`, `x = 2`, `p = 1`. -/
theorem C5_invalid_queries_return_error_witness :
    AllQueriesReturn (ctor (fin 3) (fin 0)) (fin 2) (fin 1) (fin (-2)) :=
  (C5_invalid_queries_return_error (ctor (fin 0) (fin 1)) 3 0 (fin 2) (fin 1) le_rfl).1

theorem reachable_eq_ctor (d : LogNormal_Distribution) (h : Reachable d) :
    ∃ m s : ℝ, d = ctor (fin m) (fin s) := by
  induction h with
  | ctor m s => exact ⟨m, s, rfl⟩
  | setMu d v _ ih =>
    obtain ⟨m, s, rfl⟩ := ih
    exact ⟨v, s, rfl⟩
  | setSigma d v _ ih =>
    obtain ⟨m, s, rfl⟩ := ih
    exact ⟨m, v, rfl⟩

/-- C6 (validity invariant): in every state reachable from the constructor by `SetMu` and
`SetSigma` calls, the stored `Sigma` is a real `s`, the error flag is negative, and then
`-2`, exactly when `s <= 0`, and it is `1` exactly when `s > 0`; `SetSigma` with a positive
value makes the object valid whatever its state was. -/
theorem C6_validity_invariant (d : LogNormal_Distribution) (h : Reachable d) :
    ∃ s : ℝ, d.Sigma = fin s ∧ (d.error < 0 ↔ s ≤ 0) ∧ (d.error = -2 ↔ s ≤ 0) ∧
      (d.error = 1 ↔ 0 < s) ∧ ∀ v : ℝ, 0 < v → (d.SetSigma (fin v)).error = 1 := by
  obtain ⟨m, s, rfl⟩ := reachable_eq_ctor d h
  refine ⟨s, rfl, ?_, ?_, ?_, fun v hv => SetSigma_error_pos _ v hv⟩
  · by_cases hs : s ≤ 0
    · simp [ctor_error_nonpos m s hs, hs]
    · simp [ctor_error_pos m s (not_le.mp hs), hs]
  · by_cases hs : s ≤ 0
    · simp [ctor_error_nonpos m s hs, hs]
    · simp [ctor_error_pos m s (not_le.mp hs), hs]
  · by_cases hs : s ≤ 0
    · simp [ctor_error_nonpos m s hs, not_lt.mpr hs]
    · simp [ctor_error_pos m s (not_le.mp hs), not_le.mp hs]

/-- Witness of C6: an object built with `Sigma = -1`, then `SetMu(5)`, then `SetSigma(2)`. -/
theorem C6_validity_invariant_witness :
    ∃ s : ℝ, (((ctor (fin 0) (fin (-1))).SetMu (fin 5)).SetSigma (fin 2)).Sigma = fin s ∧
      ((((ctor (fin 0) (fin (-1))).SetMu (fin 5)).SetSigma (fin 2)).error < 0 ↔ s ≤ 0) ∧
      ((((ctor (fin 0) (fin (-1))).SetMu (fin 5)).SetSigma (fin 2)).error = -2 ↔ s ≤ 0) ∧
      ((((ctor (fin 0) (fin (-1))).SetMu (fin 5)).SetSigma (fin 2)).error = 1 ↔ 0 < s) ∧
      ∀ v : ℝ, 0 < v →
        ((((ctor (fin 0) (fin (-1))).SetMu (fin 5)).SetSigma (fin 2)).SetSigma (fin v)).error
          = 1 :=
  C6_validity_invariant _
    (Reachable.setSigma _ 2 (Reachable.setMu _ 5 (Reachable.ctor 0 (-1))))

theorem cdfVal_mono (m s x1 x2 : ℝ) (hs : 0 < s) (h1 : 0 < x1) (h12 : x1 ≤ x2) :
    cdfVal m s x1 ≤ cdfVal m s x2 := by
  have h2 : 0 < x2 := lt_of_lt_of_le h1 h12
  have hlog : Real.log x1 ≤ Real.log x2 := Real.log_le_log h1 h12
  have hdiv : (Real.log x1 - m) / s ≤ (Real.log x2 - m) / s :=
    div_le_div_of_nonneg_right (by linarith) hs.le
  have harg : 0.70710678118654752440 * ((Real.log x1 - m) / s)
      ≤ 0.70710678118654752440 * ((Real.log x2 - m) / s) :=
    mul_le_mul_of_nonneg_left hdiv (by norm_num)
  have herf := Dbl.erfReal_mono harg
  simp only [cdfVal, h1.ne', h2.ne', if_false]
  linarith

/-- C9 (CDF monotonicity): on an object with `Sigma > 0`, for `0 < x1 < x2` both CDF values
are finite and `GetCDF(x1) <= GetCDF(x2)`. -/
theorem C9_cdf_monotone (m s x1 x2 : ℝ) (hs : 0 < s) (h1 : 0 < x1) (h12 : x1 < x2) :
    ∃ c1 c2 : ℝ, (ctor (fin m) (fin s)).GetCDF (fin x1) = fin c1 ∧
      (ctor (fin m) (fin s)).GetCDF (fin x2) = fin c2 ∧ c1 ≤ c2 ∧
      Dbl.le ((ctor (fin m) (fin s)).GetCDF (fin x1)) ((ctor (fin m) (fin s)).GetCDF (fin x2)) := by
  have hmono := cdfVal_mono m s x1 x2 hs h1 h12.le
  refine ⟨cdfVal m s x1, cdfVal m s x2, GetCDF_pos m s x1 hs h1,
    GetCDF_pos m s x2 hs (lt_trans h1 h12), hmono, ?_⟩
  rw [GetCDF_pos m s x1 hs h1, GetCDF_pos m s x2 hs (lt_trans h1 h12)]
  exact hmono

/-- Witness of C9 at `Mu = 0`, `Sigma = 1`, `x1 = 1`, `x2 = 2`. -/
theorem C9_cdf_monotone_witness :
    ∃ c1 c2 : ℝ, (ctor (fin 0) (fin 1)).GetCDF (fin 1) = fin c1 ∧
      (ctor (fin 0) (fin 1)).GetCDF (fin 2) = fin c2 ∧ c1 ≤ c2 ∧
      Dbl.le ((ctor (fin 0) (fin 1)).GetCDF (fin 1)) ((ctor (fin 0) (fin 1)).GetCDF (fin 2)) :=
  C9_cdf_monotone 0 1 1 2 (by norm_num) (by norm_num) (by norm_num)

theorem GetPDF_pos (m s x : ℝ) (hs : 0 < s) (hx : 0 < x) :
    (ctor (fin m) (fin s)).GetPDF (fin x) =
      fin (Real.exp (-0.5 * ((Real.log x - m) / s) ^ 2)
        / (x * s * Real.sqrt (2 * 3.14159265358979))) := by
  have hnn : (0 : ℝ) ≤ 2.0 * 3.14159265358979 := by norm_num
  have hsq : 0 < Real.sqrt (2.0 * 3.14159265358979) := Real.sqrt_pos.mpr (by norm_num)
  have hden : x * s * Real.sqrt (2.0 * 3.14159265358979) ≠ 0 := by positivity
  have h2 : (2.0 : ℝ) = 2 := by norm_num
  simp only [GetPDF, ctor_error_pos m s hs, ctor_Mu, ctor_Sigma, Dbl.log_fin_pos x hx,
    Dbl.fin_sub, Dbl.fin_div _ _ hs.ne', Dbl.pow_fin, Dbl.fin_mul, Dbl.exp_fin, CONSTANT_Pi,
    Dbl.sqrt_fin _ hnn, Dbl.fin_div _ _ hden]
  simp [h2]

/-- C10 (amended): on an object with `Sigma > 0` and for `x > 0`, `GetPDF(x)` equals
`exp(-0.5 * ((ln x - Mu)/Sigma)^2) / (x * Sigma * sqrt(2 * CONSTANT_Pi))` with
`CONSTANT_Pi = 3.14159265358979`, the constant of the header. -/
theorem C10_pdf_formula_constant_pi (m s x : ℝ) (hs : 0 < s) (hx : 0 < x) :
    (ctor (fin m) (fin s)).GetPDF (fin x) =
      fin (Real.exp (-0.5 * ((Real.log x - m) / s) ^ 2)
        / (x * s * Real.sqrt (2 * 3.14159265358979))) :=
  GetPDF_pos m s x hs hx

/-- Witness of C10 (amended) at `Mu = 0`, `Sigma = 1`, `x = 1`. -/
theorem C10_pdf_formula_constant_pi_witness :
    (ctor (fin 0) (fin 1)).GetPDF (fin 1) =
      fin (Real.exp (-0.5 * ((Real.log 1 - 0) / 1) ^ 2)
        / (1 * 1 * Real.sqrt (2 * 3.14159265358979))) :=
  C10_pdf_formula_constant_pi 0 1 1 (by norm_num) (by norm_num)

/-- C10 (counterexample): for `Mu = 0`, `Sigma = 1`, `x = 1`, `GetPDF(x)` differs from
`exp(-0.5 * ((ln x - Mu)/Sigma)^2) / (x * Sigma * sqrt(2 * pi))` taken with the mathematical
constant `pi`. -/
theorem C10_counterexample :
    (ctor (fin 0) (fin 1)).GetPDF (fin 1) ≠
      fin (Real.exp (-0.5 * ((Real.log 1 - 0) / 1) ^ 2)
        / (1 * 1 * Real.sqrt (2 * Real.pi))) := by
  rw [GetPDF_pos 0 1 1 one_pos one_pos]
  intro h
  rw [Dbl.fin_inj] at h
  simp only [Real.log_one, sub_zero, zero_div, ne_eq, OfNat.ofNat_ne_zero, not_false_eq_true,
    zero_pow, mul_zero, Real.exp_zero, mul_one, one_mul] at h
  have hsq : 0 < Real.sqrt (2 * 3.14159265358979) := Real.sqrt_pos.mpr (by norm_num)
  have hpos : 0 < Real.sqrt (2 * Real.pi) := Real.sqrt_pos.mpr (by positivity)
  field_simp at h
  have hpi := Real.pi_gt_d20
  rw [h] at hpi
  norm_num at hpi

end LogNormal_Distribution

/-! ## Bounds on the error function -/

namespace Dbl

theorem gauss_integral_le (x : ℝ) (hx : 0 ≤ x) :
    (∫ t in (0 : ℝ)..x, Real.exp (-(t ^ 2))) ≤ Real.sqrt Real.pi / 2 := by
  have hI : MeasureTheory.Integrable (fun t : ℝ => Real.exp (-(t ^ 2))) := by
    have := integrable_exp_neg_mul_sq (b := 1) one_pos
    simpa using this
  have hG : (∫ t in Set.Ioi (0 : ℝ), Real.exp (-(t ^ 2))) = Real.sqrt Real.pi / 2 := by
    have := integral_gaussian_Ioi 1
    simpa using this
  rw [intervalIntegral.integral_of_le hx, ← hG]
  apply MeasureTheory.setIntegral_mono_set hI.integrableOn
  · exact Filter.Eventually.of_forall (fun t => (Real.exp_pos _).le)
  · exact Filter.Eventually.of_forall (fun t ht => ht.1)

theorem gauss_integral_neg (x : ℝ) :
    (∫ t in (0 : ℝ)..(-x), Real.exp (-(t ^ 2))) =
      -∫ t in (0 : ℝ)..x, Real.exp (-(t ^ 2)) := by
  have h := intervalIntegral.integral_comp_neg (a := 0) (b := x)
    (fun t : ℝ => Real.exp (-(t ^ 2)))
  simp only [neg_sq, neg_zero] at h
  rw [intervalIntegral.integral_symm, ← h]

theorem erfReal_neg (x : ℝ) : erfReal (-x) = -erfReal x := by
  unfold erfReal
  rw [gauss_integral_neg, mul_neg]

theorem erfReal_le_one (x : ℝ) : erfReal x ≤ 1 := by
  rcases le_total 0 x with hx | hx
  · unfold erfReal
    have hpos : 0 < Real.sqrt Real.pi := Real.sqrt_pos.mpr Real.pi_pos
    have h := gauss_integral_le x hx
    calc 2 / Real.sqrt Real.pi * ∫ t in (0 : ℝ)..x, Real.exp (-(t ^ 2))
        ≤ 2 / Real.sqrt Real.pi * (Real.sqrt Real.pi / 2) :=
          mul_le_mul_of_nonneg_left h (by positivity)
      _ = 1 := by field_simp
  · have h := erfReal_mono hx
    rw [erfReal_zero] at h
    linarith

theorem neg_one_le_erfReal (x : ℝ) : -1 ≤ erfReal x := by
  have h := erfReal_le_one (-x)
  rw [erfReal_neg] at h
  linarith

end Dbl

/-! ## The moment queries on a valid object -/

namespace LogNormal_Distribution

theorem GetMean_valid (m s : ℝ) (hs : 0 < s) :
    (ctor (fin m) (fin s)).GetMean = fin (Real.exp (m + 0.5 * s ^ 2)) := by
  simp [GetMean, ctor_error_pos m s hs]

theorem GetVariance_valid (m s : ℝ) (hs : 0 < s) :
    (ctor (fin m) (fin s)).GetVariance =
      fin (Real.exp (s ^ 2 - 1) * Real.exp (2 * m + s ^ 2)) := by
  have h2 : (2.0 : ℝ) = 2 := by norm_num
  simp [GetVariance, ctor_error_pos m s hs, h2]

theorem exp_sq_sub_one_pos (s : ℝ) (hs : 0 < s) : 0 < Real.exp (s ^ 2) - 1 := by
  have h1 : 0 < s ^ 2 := by positivity
  have h2 := Real.add_one_lt_exp h1.ne'
  linarith

theorem GetStdDeviation_valid (m s : ℝ) (hs : 0 < s) :
    (ctor (fin m) (fin s)).GetStdDeviation =
      fin (Real.sqrt ((Real.exp (s ^ 2) - 1) * Real.exp (2 * m + s ^ 2))) := by
  have h2 : (2.0 : ℝ) = 2 := by norm_num
  have hnn : 0 ≤ (Real.exp (s ^ 2) - 1) * Real.exp (2.0 * m + s ^ 2) :=
    mul_nonneg (exp_sq_sub_one_pos s hs).le (Real.exp_pos _).le
  simp only [GetStdDeviation, ctor_error_pos m s hs, ctor_Mu, ctor_Sigma, Dbl.pow_fin,
    Dbl.exp_fin, Dbl.fin_sub, Dbl.fin_mul, Dbl.fin_add, Dbl.sqrt_fin _ hnn]
  simp [h2]

theorem GetSkewness_valid (m s : ℝ) (hs : 0 < s) :
    (ctor (fin m) (fin s)).GetSkewness =
      fin ((Real.exp (s ^ 2) + 2) * Real.sqrt (Real.exp (s ^ 2) - 1)) := by
  simp only [GetSkewness, ctor_error_pos m s hs, ctor_Sigma, Dbl.pow_fin, Dbl.exp_fin,
    Dbl.fin_sub, Dbl.fin_add, Dbl.sqrt_fin _ (exp_sq_sub_one_pos s hs).le, Dbl.fin_mul]
  simp

theorem GetKurtosis_valid (m s : ℝ) (hs : 0 < s) :
    (ctor (fin m) (fin s)).GetKurtosis =
      fin (Real.exp (4 * s ^ 2) + 2 * Real.exp (3 * s ^ 2) + 3 * Real.exp (2 * s ^ 2) - 6) := by
  simp only [GetKurtosis, ctor_error_pos m s hs, ctor_Sigma, Dbl.pow_fin, Dbl.exp_fin,
    Dbl.fin_sub, Dbl.fin_add, Dbl.fin_mul]
  norm_num

theorem GetEntropy_valid (m s : ℝ) (hs : 0 < s) :
    (ctor (fin m) (fin s)).GetEntropy =
      fin (Real.logb 2 (s * Real.exp (m + 0.5) * Real.sqrt (2 * 3.14159265358979))) := by
  have h2 : (2.0 : ℝ) = 2 := by norm_num
  have hnn : (0 : ℝ) ≤ 2.0 * 3.14159265358979 := by norm_num
  have hsq : 0 < Real.sqrt (2.0 * 3.14159265358979) := Real.sqrt_pos.mpr (by norm_num)
  have hpos : 0 < s * Real.exp (m + 0.5) * Real.sqrt (2.0 * 3.14159265358979) := by
    positivity
  simp only [GetEntropy, ctor_error_pos m s hs, ctor_Mu, ctor_Sigma, Dbl.exp_fin, Dbl.fin_add,
    Dbl.fin_mul, CONSTANT_Pi, Dbl.sqrt_fin _ hnn, Dbl.log2, hpos, if_true]
  simp [h2]

end LogNormal_Distribution

/-! ## The claims on the moments and the setters -/

namespace LogNormal_Distribution

/-- C11 (moment closed forms): on an object with `Sigma > 0`,
`GetMean() = exp(Mu + Sigma^2/2)`,
`GetSkewness() = (exp(Sigma^2) + 2) * sqrt(exp(Sigma^2) - 1)` and
`GetKurtosis() = exp(4 Sigma^2) + 2 exp(3 Sigma^2) + 3 exp(2 Sigma^2) - 6`; for `Mu = 0`,
`Sigma = 1` the mean is `exp(0.5)` and the skewness `(e + 2) * sqrt(e - 1)`. -/
theorem C11_moment_closed_forms (m s : ℝ) (hs : 0 < s) :
    (ctor (fin m) (fin s)).GetMean = fin (Real.exp (m + s ^ 2 / 2)) ∧
    (ctor (fin m) (fin s)).GetSkewness =
      fin ((Real.exp (s ^ 2) + 2) * Real.sqrt (Real.exp (s ^ 2) - 1)) ∧
    (ctor (fin m) (fin s)).GetKurtosis =
      fin (Real.exp (4 * s ^ 2) + 2 * Real.exp (3 * s ^ 2) + 3 * Real.exp (2 * s ^ 2) - 6) ∧
    (ctor (fin 0) (fin 1)).GetMean = fin (Real.exp 0.5) ∧
    (ctor (fin 0) (fin 1)).GetSkewness =
      fin ((Real.exp 1 + 2) * Real.sqrt (Real.exp 1 - 1)) := by
  refine ⟨?_, GetSkewness_valid m s hs, GetKurtosis_valid m s hs, ?_, ?_⟩
  · rw [GetMean_valid m s hs]
    congr 2
    ring
  · rw [GetMean_valid 0 1 one_pos]
    norm_num
  · rw [GetSkewness_valid 0 1 one_pos]
    norm_num

/-- Witness of C11 at `Mu = 2`, `Sigma = 3`. -/
theorem C11_moment_closed_forms_witness :
    (ctor (fin 2) (fin 3)).GetMean = fin (Real.exp (2 + 3 ^ 2 / 2)) :=
  (C11_moment_closed_forms 2 3 (by norm_num)).1

/-- C12 (variance and standard deviation disagree): on an object with `Sigma > 0`,
`GetVariance() = exp(Sigma^2 - 1) * exp(2 Mu + Sigma^2)` while
`GetStdDeviation() = sqrt((exp(Sigma^2) - 1) * exp(2 Mu + Sigma^2))`; and for `Mu = 0`,
`Sigma = 1` the standard deviation is not the square root of the variance. -/
theorem C12_variance_stddev_inconsistent (m s : ℝ) (hs : 0 < s) :
    (ctor (fin m) (fin s)).GetVariance =
      fin (Real.exp (s ^ 2 - 1) * Real.exp (2 * m + s ^ 2)) ∧
    (ctor (fin m) (fin s)).GetStdDeviation =
      fin (Real.sqrt ((Real.exp (s ^ 2) - 1) * Real.exp (2 * m + s ^ 2))) ∧
    (ctor (fin 0) (fin 1)).GetStdDeviation ≠
      Dbl.sqrt ((ctor (fin 0) (fin 1)).GetVariance) := by
  refine ⟨GetVariance_valid m s hs, GetStdDeviation_valid m s hs, ?_⟩
  rw [GetStdDeviation_valid 0 1 one_pos, GetVariance_valid 0 1 one_pos,
    Dbl.sqrt_fin _ (by positivity), Ne, Dbl.fin_inj]
  intro h
  have he := Real.exp_one_gt_d9
  have hnn : 0 ≤ (Real.exp (1 ^ 2) - 1) * Real.exp (2 * 0 + 1 ^ 2) :=
    mul_nonneg (exp_sq_sub_one_pos 1 one_pos).le (Real.exp_pos _).le
  have hsq := congrArg (fun t => t ^ 2) h
  simp only [] at hsq
  rw [Real.sq_sqrt hnn, Real.sq_sqrt (by positivity)] at hsq
  have e1 : Real.exp ((1 : ℝ) ^ 2 - 1) = 1 := by norm_num
  have e2 : Real.exp (2 * 0 + (1 : ℝ) ^ 2) = Real.exp 1 := by norm_num
  have e3 : Real.exp ((1 : ℝ) ^ 2) = Real.exp 1 := by norm_num
  rw [e1, e2, e3] at hsq
  have hpos := Real.exp_pos 1
  nlinarith

/-- Witness of C12 at `Mu = 0`, `Sigma = 1`. -/
theorem C12_variance_stddev_inconsistent_witness :
    (ctor (fin 0) (fin 1)).GetVariance =
      fin (Real.exp (1 ^ 2 - 1) * Real.exp (2 * 0 + 1 ^ 2)) :=
  (C12_variance_stddev_inconsistent 0 1 (by norm_num)).1

/-- C13 (setter frame): in every state and for every double `v`, `SetMu(v)` makes `GetMu()`
return `v` and leaves `Sigma` and the error flag unchanged; `SetSigma(v)` makes `GetSigma()`
return `v`, also for `v <= 0`, and leaves `Mu` unchanged; `GetMu` and `GetSigma` return the
stored members whatever the error flag is. -/
theorem C13_setter_frame (d : LogNormal_Distribution) (v : Dbl) :
    (d.SetMu v).GetMu = v ∧ (d.SetMu v).GetSigma = d.GetSigma ∧
    (d.SetMu v).error = d.error ∧
    (d.SetSigma v).GetSigma = v ∧ (d.SetSigma v).GetMu = d.GetMu ∧
    d.GetMu = d.Mu ∧ d.GetSigma = d.Sigma :=
  ⟨rfl, rfl, rfl, rfl, rfl, rfl, rfl⟩

/-- C14 (sentinel collision): the object with `Mu = -0.5` and
`Sigma = 1 / (4 * sqrt(2 * CONSTANT_Pi))` has `Sigma > 0` and error flag `1`, and its
`GetEntropy()` is exactly `-2`, the value the invalid object with `Sigma = 0` returns too. -/
theorem C14_entropy_sentinel_collision :
    0 < 1 / (4 * Real.sqrt (2 * 3.14159265358979)) ∧
    (ctor (fin (-0.5)) (fin (1 / (4 * Real.sqrt (2 * 3.14159265358979))))).error = 1 ∧
    (ctor (fin (-0.5)) (fin (1 / (4 * Real.sqrt (2 * 3.14159265358979))))).GetEntropy
      = fin (-2) ∧
    (ctor (fin (-0.5)) (fin 0)).error = -2 ∧
    (ctor (fin (-0.5)) (fin 0)).GetEntropy = fin (-2) := by
  have hsq : 0 < Real.sqrt (2 * 3.14159265358979) := Real.sqrt_pos.mpr (by norm_num)
  have hs : 0 < 1 / (4 * Real.sqrt (2 * 3.14159265358979)) := by positivity
  refine ⟨hs, ctor_error_pos _ _ hs, ?_, ctor_error_nonpos _ 0 le_rfl, ?_⟩
  · rw [GetEntropy_valid _ _ hs, Dbl.fin_inj]
    have h0 : (-0.5 + 0.5 : ℝ) = 0 := by norm_num
    have harg : ∀ S : ℝ, 0 < S → 1 / (4 * S) * Real.exp 0 * S = ((2 : ℝ) ^ 2)⁻¹ := by
      intro S hS
      rw [Real.exp_zero]
      field_simp
      ring
    rw [h0, harg _ hsq, Real.logb_inv, Real.logb_pow, Real.logb_self_eq_one (by norm_num)]
    norm_num
  · simp [GetEntropy, ctor_error_nonpos (-0.5) 0 le_rfl]

theorem cdfVal_nonneg (m s x : ℝ) : 0 ≤ cdfVal m s x := by
  unfold cdfVal
  split_ifs
  · exact le_rfl
  · have h := Dbl.neg_one_le_erfReal (0.70710678118654752440 * ((Real.log x - m) / s))
    norm_num
    linarith

theorem cdfVal_le_one (m s x : ℝ) : cdfVal m s x ≤ 1 := by
  unfold cdfVal
  split_ifs
  · exact zero_le_one
  · have h := Dbl.erfReal_le_one (0.70710678118654752440 * ((Real.log x - m) / s))
    norm_num
    linarith

/-- C17 (CDF range): on an object with `Sigma > 0` and for `x > 0`, `GetCDF(x)` is a finite
value in `[0, 1]`, hence never the sentinel `-2`. -/
theorem C17_cdf_range (m s x : ℝ) (hs : 0 < s) (hx : 0 < x) :
    ∃ c : ℝ, (ctor (fin m) (fin s)).GetCDF (fin x) = fin c ∧ 0 ≤ c ∧ c ≤ 1 ∧
      (ctor (fin m) (fin s)).GetCDF (fin x) ≠ fin (-2) := by
  refine ⟨cdfVal m s x, GetCDF_pos m s x hs hx, cdfVal_nonneg m s x, cdfVal_le_one m s x, ?_⟩
  rw [GetCDF_pos m s x hs hx, Ne, Dbl.fin_inj]
  have h := cdfVal_nonneg m s x
  intro heq
  rw [heq] at h
  norm_num at h

/-- Witness of C17 at `Mu = 0`, `Sigma = 1`, `x = 3`. -/
theorem C17_cdf_range_witness :
    ∃ c : ℝ, (ctor (fin 0) (fin 1)).GetCDF (fin 3) = fin c ∧ 0 ≤ c ∧ c ≤ 1 ∧
      (ctor (fin 0) (fin 1)).GetCDF (fin 3) ≠ fin (-2) :=
  C17_cdf_range 0 1 3 (by norm_num) (by norm_num)

end LogNormal_Distribution

/-! ## The loop when the quantile lies beyond the upper search bound -/

namespace LogNormal_Distribution

/-- When the CDF at `16` stays below `p - 1e-7`, every pass misses the tolerance and moves
the lower end up, so the loop ends with the counter at 70. -/
theorem GetQuantile_loop_exhausts (m s p : ℝ) (hs : 0 < s)
    (h16 : cdfVal m s 16 < p - 0.0000001) :
    ∀ (n i : Nat) (hi lo : ℝ), 70 - i ≤ n → i < 70 → 0 ≤ lo → lo ≤ hi → 0 < hi → hi ≤ 16 →
      ((ctor (fin m) (fin s)).GetQuantile_loop (fin p) i (fin hi) (fin lo)).1 = 70 := by
  intro n
  induction n with
  | zero =>
    intro i hi lo hn hi70
    omega
  | succ n ih =>
    intro i hi lo hn hi70 hlo hle hpos h16le
    have hmidpos : 0 < (hi + lo) / 2 := by linarith
    have hc : cdfVal m s ((hi + lo) / 2) ≤ cdfVal m s 16 :=
      cdfVal_mono m s _ 16 hs hmidpos (by linarith)
    have hnlt : ¬ p < cdfVal m s ((hi + lo) / 2) := by
      have h7 : (0 : ℝ) < 0.0000001 := by norm_num
      linarith
    have heps : 0.0000001 < |cdfVal m s ((hi + lo) / 2) - p| := by
      rw [abs_of_neg (by linarith)]
      linarith
    rw [GetQuantile_loop_step m s p hi lo i hs hmidpos.le]
    by_cases h70 : i + 1 < 70
    · rw [if_pos ⟨heps, h70⟩, if_neg hnlt, if_neg hnlt]
      exact ih (i + 1) hi ((hi + lo) / 2) (by omega) h70 hmidpos.le (by linarith) hpos h16le
    · rw [if_neg (fun h => h70 h.2)]
      show i + 1 = 70
      omega

end LogNormal_Distribution

/-! ## The claims on the range of the quantile -/

namespace LogNormal_Distribution

/-- C15 (non-convergence path): on an object with `Sigma > 0` and for `0 < p < 1`, when
`GetCDF(16)` is a value `c < p - 1e-7`, `GetQuantile(p)` returns the sentinel `-9999`. -/
theorem C15_quantile_beyond_bound_returns_sentinel (m s p c : ℝ) (hs : 0 < s) (hp0 : 0 < p)
    (hp1 : p < 1) (hc : (ctor (fin m) (fin s)).GetCDF (fin 16) = fin c)
    (hlt : c < p - 0.0000001) :
    (ctor (fin m) (fin s)).GetQuantile (fin p) = fin (-9999) := by
  rw [GetCDF_pos m s 16 hs (by norm_num), Dbl.fin_inj] at hc
  have h16 : cdfVal m s 16 < p - 0.0000001 := by rw [hc]; exact hlt
  have hp : (0.0000001 : ℝ) < p := by
    have := cdfVal_nonneg m s 16
    linarith
  have hloop := GetQuantile_loop_exhausts m s p hs h16 70 1 16 0 (by omega) (by omega) le_rfl
    (by norm_num) (by norm_num) le_rfl
  rw [GetQuantile_valid m s p hs hp0 hp1, GetQuantile_loop_first m s p hs hp0, if_pos hp,
    hloop]
  simp

/-- Witness of C15 at `Mu = ln 16`, `Sigma = 1`, `p = 3/4`, where `GetCDF(16) = 1/2`. -/
theorem C15_quantile_beyond_bound_returns_sentinel_witness :
    (ctor (fin (Real.log 16)) (fin 1)).GetQuantile (fin (3 / 4)) = fin (-9999) :=
  C15_quantile_beyond_bound_returns_sentinel (Real.log 16) 1 (3 / 4) (1 / 2) (by norm_num)
    (by norm_num) (by norm_num)
    (by rw [GetCDF_pos _ 1 16 one_pos (by norm_num), cdfVal_median 16 (by norm_num)])
    (by norm_num)

/-- Entered with counter `i` and the bracket `[-16 + 32 a / 2^i, -16 + 32 (a + 1) / 2^i]`,
the loop ends at a pass `j`; when `j < 70` its result is `-16 + 32 k / 2^j` with `k` odd,
strictly inside the bracket. -/
theorem GetQuantile_loop_dyadic (m s p : ℝ) (hs : 0 < s) :
    ∀ (n i a : Nat) (hi lo : ℝ), 70 - i ≤ n →
      lo = -16 + 32 * (a : ℝ) / 2 ^ i → hi = -16 + 32 * ((a : ℝ) + 1) / 2 ^ i → 0 ≤ lo →
      ∃ (j : Nat) (v : ℝ),
        (ctor (fin m) (fin s)).GetQuantile_loop (fin p) i (fin hi) (fin lo) = (j, fin v) ∧
        i < j ∧
        (j < 70 → lo < v ∧ v < hi ∧ ∃ k : Nat, Odd k ∧ v = -16 + 32 * (k : ℝ) / 2 ^ j) := by
  intro n
  induction n with
  | zero =>
    intro i a hi lo hn hlo hhi h0
    have hpow : (0 : ℝ) < 2 ^ i := by positivity
    have hlt : lo < hi := by
      rw [hlo, hhi]
      have : 32 * (a : ℝ) / 2 ^ i < 32 * ((a : ℝ) + 1) / 2 ^ i :=
        div_lt_div_of_pos_right (by linarith) hpow
      linarith
    have hmid : 0 ≤ (hi + lo) / 2 := by linarith
    refine ⟨i + 1, (hi + lo) / 2, ?_, by omega, fun h => by omega⟩
    rw [GetQuantile_loop_step m s p hi lo i hs hmid, if_neg]
    rintro ⟨-, h⟩
    omega
  | succ n ih =>
    intro i a hi lo hn hlo hhi h0
    have hpow : (0 : ℝ) < 2 ^ i := by positivity
    have hlt : lo < hi := by
      rw [hlo, hhi]
      have : 32 * (a : ℝ) / 2 ^ i < 32 * ((a : ℝ) + 1) / 2 ^ i :=
        div_lt_div_of_pos_right (by linarith) hpow
      linarith
    have hmid : 0 ≤ (hi + lo) / 2 := by linarith
    have hmidk : (hi + lo) / 2 = -16 + 32 * ((2 * a + 1 : Nat) : ℝ) / 2 ^ (i + 1) := by
      rw [hlo, hhi, pow_succ]
      push_cast
      field_simp
      ring
    have hlok : lo = -16 + 32 * ((2 * a : Nat) : ℝ) / 2 ^ (i + 1) := by
      rw [hlo, pow_succ]
      push_cast
      field_simp
      ring
    have hhik : hi = -16 + 32 * (((2 * a + 1 : Nat) : ℝ) + 1) / 2 ^ (i + 1) := by
      rw [hhi, pow_succ]
      push_cast
      field_simp
      ring
    rw [GetQuantile_loop_step m s p hi lo i hs hmid]
    by_cases hcond : 0.0000001 < |cdfVal m s ((hi + lo) / 2) - p| ∧ i + 1 < 70
    · rw [if_pos hcond]
      by_cases hc : p < cdfVal m s ((hi + lo) / 2)
      · simp only [if_pos hc]
        have hmid' : (hi + lo) / 2 = -16 + 32 * (((2 * a : Nat) : ℝ) + 1) / 2 ^ (i + 1) := by
          rw [hmidk]; push_cast; ring
        obtain ⟨j, v, he, hij, h3⟩ :=
          ih (i + 1) (2 * a) ((hi + lo) / 2) lo (by omega) hlok hmid' h0
        refine ⟨j, v, he, by omega, fun hj => ?_⟩
        obtain ⟨h1, h2, hk⟩ := h3 hj
        exact ⟨h1, by linarith, hk⟩
      · simp only [if_neg hc]
        obtain ⟨j, v, he, hij, h3⟩ :=
          ih (i + 1) (2 * a + 1) hi ((hi + lo) / 2) (by omega) hmidk hhik hmid
        refine ⟨j, v, he, by omega, fun hj => ?_⟩
        obtain ⟨h1, h2, hk⟩ := h3 hj
        exact ⟨by linarith, h2, hk⟩
    · rw [if_neg hcond]
      refine ⟨i + 1, (hi + lo) / 2, rfl, by omega, fun _ => ⟨by linarith, by linarith, ?_⟩⟩
      exact ⟨2 * a + 1, odd_two_mul_add_one a, hmidk⟩

theorem GetQuantile_low (m s p : ℝ) (hs : 0 < s) (hp : p ≤ 0) :
    (ctor (fin m) (fin s)).GetQuantile (fin p) = fin (-16) := by
  have hp' : p ≤ 0.0 := by norm_num; exact hp
  simp [GetQuantile, ctor_error_pos m s hs, hp']

theorem GetQuantile_high (m s p : ℝ) (hs : 0 < s) (hp : 1 ≤ p) :
    (ctor (fin m) (fin s)).GetQuantile (fin p) = fin 16 := by
  have hp' : (1.0 : ℝ) ≤ p := by norm_num; exact hp
  have hn : ¬ p ≤ 0.0 := by norm_num; linarith
  simp [GetQuantile, ctor_error_pos m s hs, hp', hn]

/-- C16 (quantile result range): on an object with `Sigma > 0` and for every real `p`,
`GetQuantile(p)` is a finite value `q` that is `-9999` or lies in `[-16, 16]`; for
`0 < p < 1` a result other than `-9999` lies strictly between `-16` and `16` and is a
bisection midpoint `-16 + 32 k / 2^i` with `1 <= i <= 69` and `k` odd. -/
theorem C16_quantile_result_range (m s p : ℝ) (hs : 0 < s) :
    ∃ q : ℝ, (ctor (fin m) (fin s)).GetQuantile (fin p) = fin q ∧
      (q = -9999 ∨ (-16 ≤ q ∧ q ≤ 16)) ∧
      (0 < p → p < 1 → q ≠ -9999 →
        -16 < q ∧ q < 16 ∧
          ∃ i k : Nat, 1 ≤ i ∧ i ≤ 69 ∧ Odd k ∧ q = -16 + 32 * (k : ℝ) / 2 ^ i) := by
  by_cases hp0 : p ≤ 0
  · exact ⟨-16, GetQuantile_low m s p hs hp0, Or.inr ⟨le_rfl, by norm_num⟩,
      fun h => absurd h (not_lt.mpr hp0)⟩
  by_cases hp1 : 1 ≤ p
  · exact ⟨16, GetQuantile_high m s p hs hp1, Or.inr ⟨by norm_num, le_rfl⟩,
      fun _ h => absurd h (not_lt.mpr hp1)⟩
  have hp0' : 0 < p := not_le.mp hp0
  have hp1' : p < 1 := not_le.mp hp1
  rw [GetQuantile_valid m s p hs hp0' hp1', GetQuantile_loop_first m s p hs hp0']
  by_cases hp : 0.0000001 < p
  · rw [if_pos hp]
    obtain ⟨j, v, he, hij, h3⟩ := GetQuantile_loop_dyadic m s p hs 70 1 1 16 0 (by omega)
      (by norm_num) (by norm_num) le_rfl
    rw [he]
    by_cases hj : j ≥ 70
    · exact ⟨-9999, by simp [hj], Or.inl rfl, fun _ _ h => absurd rfl h⟩
    · obtain ⟨h1, h2, k, hk, hv⟩ := h3 (by omega)
      refine ⟨v, by simp [hj], Or.inr ⟨by linarith, h2.le⟩, fun _ _ _ => ?_⟩
      exact ⟨by linarith, h2, j, k, by omega, by omega, hk, hv⟩
  · rw [if_neg hp]
    refine ⟨0, by simp, Or.inr ⟨by norm_num, by norm_num⟩, fun _ _ _ => ?_⟩
    exact ⟨by norm_num, by norm_num, 1, 1, le_rfl, by norm_num, odd_one, by norm_num⟩

/-- Witness of C16 at `Mu = 0`, `Sigma = 1`, `p = 1/2`. -/
theorem C16_quantile_result_range_witness :
    ∃ q : ℝ, (ctor (fin 0) (fin 1)).GetQuantile (fin (1 / 2)) = fin q ∧
      (q = -9999 ∨ (-16 ≤ q ∧ q ≤ 16)) ∧
      ((0 : ℝ) < 1 / 2 → (1 : ℝ) / 2 < 1 → q ≠ -9999 →
        -16 < q ∧ q < 16 ∧
          ∃ i k : Nat, 1 ≤ i ∧ i ≤ 69 ∧ Odd k ∧ q = -16 + 32 * (k : ℝ) / 2 ^ i) :=
  C16_quantile_result_range 0 1 (1 / 2) (by norm_num)

end LogNormal_Distribution

end
